import Mathlib

/-
Verification development for the crunchy Intelligent Peer Sharing (IPS)
core: a shallow embedding of `src/ips.rs` and `src/ips/graph_utils.rs`
into Lean, with theorems about the embedded operations.

Modelling conventions:
* machine reals (`f64`) are embedded as `ℚ` with exact arithmetic; all the
  claims assume finite, non-NaN centralities, over which `f64` comparison
  is the total order of the reals;
* `u32` quantities are embedded as `Nat`, with explicit saturation at
  `2 ^ 32 - 1` where the source uses saturating operations;
* a Rust panic (`expect`, `unwrap`, out-of-range indexing) is embedded as
  `none` of an `Option`-valued function;
* the external centrality engine (the spectre crate) and the geodesic
  `distance_to` primitive are black-box dependencies; their outputs enter
  the embedded pipeline as explicit parameters.
-/

namespace Crunchy

/-- Network address label. The source keys graphs and centrality maps by
parsed `IpAddr` / `SocketAddr` values; we model an address as a natural
number. -/
abbrev IpAddr := Nat

/-- Network type tag (`ziggurat_core_crawler::summary::NetworkType`, an
external closed enumeration). -/
inductive NetworkType where
  | zcash
  | ripple
  | unknown
  deriving DecidableEq, Repr

/-- Geographic coordinates. The geodesic `distance_to` primitive on them is
external and is passed as a parameter where needed. -/
structure Location where
  latitude : ℚ
  longitude : ℚ
  deriving DecidableEq, Repr

/-- Geolocation record attached to a node; its `location` field is optional. -/
structure GeoInfo where
  location : Option Location
  deriving DecidableEq, Repr

/-- Modelled from the spec: the crate-root `Node` record (its definition is
not under `src/`; this follows section 3 of the design document and the
fields used by `ips.rs` and `graph_utils.rs`). The address string `ip` is
parsed with the external `IpAddr::from_str`, which fails on a malformed
address; we model the string together with its parse result as an
`Option IpAddr`, `none` standing for a malformed address. -/
structure Node where
  ip : Option IpAddr
  addr : IpAddr
  connections : List Nat
  betweenness : ℚ
  closeness : ℚ
  geolocation : Option GeoInfo
  network_type : NetworkType
  deriving DecidableEq, Repr

/-- Geolocation mode of the configuration (`config::GeoLocationMode`). -/
inductive GeoLocationMode where
  | off
  | preferCloser
  | preferFarther
  deriving DecidableEq, Repr

/-- MCDA weights of the configuration. -/
structure McdaWeights where
  degree : ℚ
  betweenness : ℚ
  closeness : ℚ
  eigenvector : ℚ
  location : ℚ
  deriving DecidableEq, Repr

/-- Modelled from the spec: the recognized configuration options
(`config::IPSConfiguration` is not under `src/`; this follows the
configuration table in section 6 of the design document). `change_at_least`
and `change_no_more` are `u32` values. -/
structure IPSConfiguration where
  mcda_weights : McdaWeights
  geolocation : GeoLocationMode
  geolocation_minmax_distance_km : ℚ
  change_at_least : Nat
  change_no_more : Nat
  deriving DecidableEq, Repr

/-- Output record of the pipeline (`Peer`). -/
structure Peer where
  ip : IpAddr
  list : List IpAddr
  deriving DecidableEq, Repr

/-- Internal ranking row (`PeerEntry`). -/
structure PeerEntry where
  ip : IpAddr
  index : Nat
  rating : ℚ
  deriving DecidableEq, Repr

/-- Sequence a fallible computation over a list; Rust loops whose body can
panic are embedded with this combinator, `none` standing for a panic in
some iteration. -/
def mapOpt (f : α → Option β) : List α → Option (List β)
  | [] => some []
  | x :: xs =>
    match f x, mapOpt f xs with
    | some y, some ys => some (y :: ys)
    | _, _ => none

theorem mapOpt_nil (f : α → Option β) : mapOpt f [] = some [] := rfl

theorem mapOpt_cons (f : α → Option β) (x : α) (xs : List α) :
    mapOpt f (x :: xs) =
      match f x, mapOpt f xs with
      | some y, some ys => some (y :: ys)
      | _, _ => none := rfl

theorem mapOpt_cons_eq_some {f : α → Option β} {x : α} {xs : List α} {zs : List β}
    (h : mapOpt f (x :: xs) = some zs) :
    ∃ y ys, f x = some y ∧ mapOpt f xs = some ys ∧ zs = y :: ys := by
  rw [mapOpt_cons] at h
  cases hfx : f x with
  | none => rw [hfx] at h; simp at h
  | some y =>
    cases hrest : mapOpt f xs with
    | none => rw [hfx, hrest] at h; simp at h
    | some ys =>
      rw [hfx, hrest] at h
      simp only [Option.some.injEq] at h
      exact ⟨y, ys, rfl, rfl, h.symm⟩

theorem mapOpt_length {f : α → Option β} {l : List α} {ys : List β}
    (h : mapOpt f l = some ys) : ys.length = l.length := by
  induction l generalizing ys with
  | nil => simp [mapOpt] at h; simp [h]
  | cons x xs ih =>
    obtain ⟨y, ys', hy, hrest, rfl⟩ := mapOpt_cons_eq_some h
    simp [ih hrest]

theorem mapOpt_get? {f : α → Option β} {l : List α} {ys : List β}
    (h : mapOpt f l = some ys) :
    ∀ i x, l.get? i = some x → ∃ y, ys.get? i = some y ∧ f x = some y := by
  induction l generalizing ys with
  | nil => intro i x hx; simp at hx
  | cons a as ih =>
    obtain ⟨y, ys', hy, hrest, rfl⟩ := mapOpt_cons_eq_some h
    intro i x hx
    cases i with
    | zero =>
      simp only [List.get?, Option.some.injEq] at hx
      subst hx
      exact ⟨y, rfl, hy⟩
    | succ n =>
      simp only [List.get?] at hx ⊢
      exact ih hrest n x hx

theorem mapOpt_mem {f : α → Option β} {l : List α} {ys : List β}
    (h : mapOpt f l = some ys) :
    ∀ y ∈ ys, ∃ x ∈ l, f x = some y := by
  induction l generalizing ys with
  | nil => simp [mapOpt] at h; simp [h]
  | cons a as ih =>
    obtain ⟨y, ys', hy, hrest, rfl⟩ := mapOpt_cons_eq_some h
    intro z hz
    rcases List.mem_cons.mp hz with hz | hz
    · exact ⟨a, List.mem_cons_self a as, hz ▸ hy⟩
    · obtain ⟨x, hx, hfx⟩ := ih hrest z hz
      exact ⟨x, List.mem_cons_of_mem a hx, hfx⟩

theorem mapOpt_mem_of_mem {f : α → Option β} {l : List α} {ys : List β}
    (h : mapOpt f l = some ys) :
    ∀ x ∈ l, ∃ y ∈ ys, f x = some y := by
  induction l generalizing ys with
  | nil => intro x hx; simp at hx
  | cons a as ih =>
    obtain ⟨y, ys', hy, hrest, rfl⟩ := mapOpt_cons_eq_some h
    intro x hx
    rcases List.mem_cons.mp hx with hx | hx
    · exact ⟨y, List.mem_cons_self y ys', hx ▸ hy⟩
    · obtain ⟨z, hz, hfz⟩ := ih hrest x hx
      exact ⟨z, List.mem_cons_of_mem y hz, hfz⟩

/-- Insert in front of the first element the comparison accepts; the helper
of the stable insertion sort below. -/
def insertSorted (le : α → α → Bool) (x : α) : List α → List α
  | [] => [x]
  | y :: ys => if le x y then x :: y :: ys else y :: insertSorted le x ys

/-- Stable sort by a boolean total comparison; the embedding of Rust's
stable `sort_by`. -/
def sortBy (le : α → α → Bool) : List α → List α
  | [] => []
  | x :: xs => insertSorted le x (sortBy le xs)

theorem insertSorted_perm (le : α → α → Bool) (x : α) (l : List α) :
    (insertSorted le x l).Perm (x :: l) := by
  induction l with
  | nil => simp [insertSorted]
  | cons y ys ih =>
    by_cases h : le x y
    · simp [insertSorted, h]
    · simp only [insertSorted, h, if_neg, Bool.false_eq_true, not_false_eq_true, ite_false]
      exact (ih.cons y).trans (List.Perm.swap x y ys)

theorem sortBy_perm (le : α → α → Bool) (l : List α) : (sortBy le l).Perm l := by
  induction l with
  | nil => simp [sortBy]
  | cons x xs ih =>
    exact (insertSorted_perm le x (sortBy le xs)).trans (ih.cons x)

theorem mem_sortBy (le : α → α → Bool) (l : List α) (a : α) :
    a ∈ sortBy le l ↔ a ∈ l :=
  (sortBy_perm le l).mem_iff

theorem sortBy_length (le : α → α → Bool) (l : List α) :
    (sortBy le l).length = l.length :=
  (sortBy_perm le l).length_eq

/-- Embedding of a spectre graph as the list of inserted undirected edges
(the spectre crate is external; only edge insertion and membership matter
to the claims). -/
abbrev EdgeList := List (IpAddr × IpAddr)

/-- Membership of an undirected edge in the edge list. -/
def edgeMem (g : EdgeList) (a b : IpAddr) : Prop := (a, b) ∈ g ∨ (b, a) ∈ g

instance (g : EdgeList) (a b : IpAddr) : Decidable (edgeMem g a b) := by
  unfold edgeMem; infer_instance

/-- Embedding of `graph_utils::construct_graph`: rebuild the labeled graph
from each node's `connections`; a node with empty `connections` is inserted
as a self-edge; an out-of-range connection index is skipped with a
non-fatal diagnostic. -/
def construct_graph (nodes : List Node) : EdgeList :=
  nodes.foldl (fun g node =>
    if node.connections = [] then g ++ [(node.addr, node.addr)]
    else g ++ node.connections.filterMap (fun i =>
      if h : i < nodes.length then some (node.addr, (nodes.get ⟨i, h⟩).addr)
      else none)) []

/-- Embedding of `Ips::construct_graph`: for every `i` below the agraph
length and every position `j` below the length of row `i`, insert the edge
`(nodes[i].ip, nodes[j].ip)` — the source indexes `nodes[j]` with the row
position `j` itself, not with the row entry `agraph[i][j]`. `none` embeds
the panic on an out-of-range node index or a malformed address. -/
def Ips.construct_graph (nodes : List Node) (agraph : List (List Nat)) :
    Option EdgeList := do
  let rows ← mapOpt (fun i => do
      let row ← agraph.get? i
      mapOpt (fun _j => do
          let ni ← nodes.get? i
          let a ← ni.ip
          let nj ← nodes.get? _j
          let b ← nj.ip
          pure (a, b)) (List.range row.length)) (List.range agraph.length)
  pure rows.flatten

/-- Modelled from the spec: `ips::statistics::median` (the statistics module
is not under `src/`): the median of an already sorted sample — the middle
element for odd length, the arithmetic mean of the two middle elements for
even length; `none` on an empty sample. -/
def median (l : List ℚ) : Option ℚ :=
  if l.length = 0 then none
  else if l.length % 2 = 1 then l.get? (l.length / 2)
  else do
    let a ← l.get? (l.length / 2 - 1)
    let b ← l.get? (l.length / 2)
    pure ((a + b) / 2)

/-- Embedding of `graph_utils::find_bridges`: with `T` the betweenness
median times the adjustment, for every node `u` with `betweenness[u] ≥ T`
and every `v ∈ connections[u]` with `betweenness[v] > T`, record the pair
in both directions. The `HashMap<usize, HashSet<usize>>` is embedded as the
list of recorded directed pairs (membership-equivalent); `none` embeds the
panic on an out-of-range connection index; with fewer than 2 nodes the
empty map is returned. -/
def find_bridges (nodes : List Node) (threshold_adjustment : ℚ) :
    Option (List (Nat × Nat)) :=
  if nodes.length < 2 then some []
  else do
    let betweenness_list := sortBy (fun a b => decide (a ≤ b)) (nodes.map Node.betweenness)
    let m ← median betweenness_list
    let betweenness_threshold := m * threshold_adjustment
    let rows ← mapOpt (fun p =>
        if p.2.betweenness < betweenness_threshold then some []
        else (mapOpt (fun peer =>
            (nodes.get? peer).map (fun pn =>
              if pn.betweenness ≤ betweenness_threshold then ([] : List (Nat × Nat))
              else [(p.1, peer), (peer, p.1)])) p.2.connections).map List.flatten)
      nodes.enum
    pure rows.flatten

/-- Embedding of `graph_utils::remove_node`: drop the removed index from
every `connections` list (first occurrence, via `position` + `remove`),
drop every node whose `addr` equals the removed node's `addr` (`retain`),
then decrement every connection index above the removed one. `none` embeds
the panic when `node_idx` is out of range. -/
def remove_node (nodes : List Node) (node_idx : Nat) : Option (List Node) := do
  let node ← nodes.get? node_idx
  let step1 := nodes.map (fun r => { r with connections := r.connections.erase node_idx })
  let step2 := step1.filter (fun x => x.addr ≠ node.addr)
  pure (step2.map (fun n =>
    { n with connections := n.connections.map (fun c => if node_idx < c then c - 1 else c) }))

/-- Embedding of `graph_utils::filter_network`: collect the indices of the
nodes of a different network type, highest index first, then remove them
one by one with `remove_node`. -/
def filter_network (nodes : List Node) (network : NetworkType) : Option (List Node) :=
  let indices_to_remove := (List.range nodes.length).reverse.filter
    (fun idx => ((nodes.get? idx).map Node.network_type).getD network ≠ network)
  indices_to_remove.foldlM (fun acc k => remove_node acc k) nodes

/-- Shorthand to build concrete nodes in examples: a parseable address equal
to `addr`, the given connections, betweenness and network type. -/
def mkNode (ip : Option IpAddr) (addr : IpAddr) (conns : List Nat)
    (betw : ℚ) (net : NetworkType) : Node :=
  { ip := ip, addr := addr, connections := conns, betweenness := betw,
    closeness := 0, geolocation := none, network_type := net }

/-- Concrete snapshot for the graph-reconstruction claim: three parseable
nodes and adjacency `[[2], [], []]`, that is, node 0 adjacent to node 2. -/
def nodesAdjC1 : List Node :=
  [mkNode (some 10) 10 [] 0 .unknown,
   mkNode (some 20) 20 [] 0 .unknown,
   mkNode (some 30) 30 [] 0 .unknown]

/-- Adjacency of the graph-reconstruction example. -/
def agraphC1 : List (List Nat) := [[2], [], []]

/-- Index renumbering applied by `remove_node` after a removal at `k`. -/
def renum (k c : Nat) : Nat := if k < c then c - 1 else c

/-- Per-surviving-node effect of `remove_node` at index `k`: erase the first
occurrence of `k` from `connections`, then renumber the remaining indices. -/
def adjustNode (k : Nat) (n : Node) : Node :=
  { n with connections := (n.connections.erase k).map (renum k) }

theorem filter_addr_ne_eq_eraseIdx (nodes : List Node) (k : Nat) (node : Node)
    (hk : nodes.get? k = some node) (hnd : (nodes.map Node.addr).Nodup) :
    nodes.filter (fun x => x.addr ≠ node.addr) = nodes.eraseIdx k := by
  induction nodes generalizing k with
  | nil => simp at hk
  | cons a as ih =>
    simp only [List.map_cons, List.nodup_cons] at hnd
    cases k with
    | zero =>
      have ha : a = node := by simpa using hk
      subst ha
      simp only [List.eraseIdx]
      have h0 : (decide (a.addr ≠ a.addr)) = false := by simp
      rw [List.filter_cons, h0]
      simp only [Bool.false_eq_true, if_false]
      apply List.filter_eq_self.mpr
      intro x hx
      have hmem : x.addr ∈ as.map Node.addr := List.mem_map_of_mem Node.addr hx
      have hne : x.addr ≠ a.addr := fun he => hnd.1 (he ▸ hmem)
      simpa using hne
    | succ n =>
      simp only [List.get?] at hk
      have hmem : node ∈ as := List.get?_mem hk
      have hin : node.addr ∈ as.map Node.addr := List.mem_map_of_mem Node.addr hmem
      have hne : a.addr ≠ node.addr := fun he => hnd.1 (he ▸ hin)
      have h1 : (decide (a.addr ≠ node.addr)) = true := by simpa using hne
      simp only [List.eraseIdx]
      rw [List.filter_cons, h1]
      simp only [if_true]
      rw [ih n hk hnd.2]

theorem remove_node_eq (nodes : List Node) (k : Nat) (node : Node)
    (hk : nodes.get? k = some node) (hnd : (nodes.map Node.addr).Nodup) :
    remove_node nodes k = some ((nodes.eraseIdx k).map (adjustNode k)) := by
  unfold remove_node
  rw [hk]
  simp only [Option.bind_eq_bind, Option.some_bind, Option.some.injEq]
  have hcomm : List.filter (fun x => decide (x.addr ≠ node.addr))
      (nodes.map (fun r => { r with connections := r.connections.erase k })) =
      (nodes.filter (fun x => x.addr ≠ node.addr)).map
        (fun r => { r with connections := r.connections.erase k }) := by
    rw [List.filter_map]
    rfl
  rw [hcomm, filter_addr_ne_eq_eraseIdx nodes k node hk hnd, List.map_map]
  rfl

theorem count_le_one_not_mem_erase {l : List Nat} {k : Nat}
    (h : l.count k ≤ 1) : k ∉ l.erase k := by
  intro hmem
  have hc := List.count_erase_self k l
  have hpos : 0 < (l.erase k).count k := List.count_pos_iff.mpr hmem
  omega

theorem mem_adjust_connections {conns : List Nat} {k c : Nat}
    (hcount : conns.count k ≤ 1) :
    c ∈ (conns.erase k).map (renum k) ↔ ∃ e ∈ conns, e ≠ k ∧ c = renum k e := by
  constructor
  · intro h
    obtain ⟨e, he, rfl⟩ := List.mem_map.mp h
    refine ⟨e, List.mem_of_mem_erase he, fun hek => ?_, rfl⟩
    exact count_le_one_not_mem_erase hcount (hek ▸ he)
  · rintro ⟨e, he, hek, rfl⟩
    exact List.mem_map_of_mem (renum k) ((List.mem_erase_of_ne hek).mpr he)

theorem renum_lt {N k e : Nat} (hk : k < N) (he : e < N) (hek : e ≠ k) :
    renum k e < N - 1 := by
  unfold renum
  split <;> omega

/-- C1: the claim asserts that, for both reconstruction variants, the
reconstructed graph contains the edge `(nodes[i].addr, nodes[j].addr)` for
every `j ∈ adjacency[i]`. It fails on `Ips::construct_graph`: with
adjacency `[[2], [], []]` (so `2 ∈ adjacency[0]`) the source indexes
`nodes[j]` with the position `j` inside the row instead of the row entry
`agraph[i][j]`, inserting the spurious self-edge `(nodes[0], nodes[0])`,
and the required edge `(nodes[0], nodes[2])` is absent from the result. -/
theorem C1_ips_construct_graph_wrong_edge :
    Ips.construct_graph nodesAdjC1 agraphC1 = some [(10, 10)] ∧
    ¬ edgeMem [(10, 10)] 10 30 :=
  ⟨by decide, by decide⟩

/-- Snapshot refuting the unamended node-removal claim: node 0 lists the
removed index 1 twice in its `connections`. -/
def nodesDupC8 : List Node :=
  [mkNode (some 0) 0 [1, 1] 0 .unknown, mkNode (some 1) 1 [] 0 .unknown]

/-- C8 counterexample: `remove_node` only removes the first occurrence of
the removed index from each `connections` list, so on a list whose node 0
holds `connections = [1, 1]`, removing index 1 leaves a connection index 1
in the surviving 1-element list — not a valid index (`1 < 1` fails), and an
edge not present before (0 pointed to the removed node, not to itself). -/
theorem C8_remove_node_counterexample :
    remove_node nodesDupC8 1 = some [mkNode (some 0) 0 [1] 0 .unknown] ∧
    ¬ (∀ n ∈ [mkNode (some 0) 0 [1] 0 .unknown], ∀ c ∈ n.connections,
        c < nodesDupC8.length - 1) :=
  ⟨by decide, by decide⟩

/-- C8 (amended with: no `connections` list mentions the removed index more
than once): for every node list with pairwise-distinct addresses, in-range
connection indices, and at most one occurrence of `k` per `connections`
list, `remove_node nodes k` succeeds and returns a list of length `N - 1`
whose connections are valid indices into the shortened list, and whose
node at position `j` is the prior node at position `j` (below `k`) or
`j + 1` (at or above `k`), carrying exactly the renumbered prior
connections that did not touch `k` — every prior edge not incident to the
removed node survives under the renumbering, and no new edge appears. -/
theorem C8_remove_node_spec (nodes : List Node) (k : Nat) (node : Node)
    (hk : nodes.get? k = some node)
    (hnd : (nodes.map Node.addr).Nodup)
    (hrange : ∀ n ∈ nodes, ∀ c ∈ n.connections, c < nodes.length)
    (hcount : ∀ n ∈ nodes, n.connections.count k ≤ 1) :
    ∃ Y, remove_node nodes k = some Y ∧
      Y.length = nodes.length - 1 ∧
      (∀ n ∈ Y, ∀ c ∈ n.connections, c < nodes.length - 1) ∧
      ∀ j, j < nodes.length - 1 →
        ∃ m orig, Y.get? j = some m ∧
          nodes.get? (if j < k then j else j + 1) = some orig ∧
          m.addr = orig.addr ∧
          ∀ c, c ∈ m.connections ↔ ∃ e ∈ orig.connections, e ≠ k ∧ c = renum k e := by
  have hklen : k < nodes.length := List.get?_eq_some.mp hk |>.1
  refine ⟨(nodes.eraseIdx k).map (adjustNode k),
    remove_node_eq nodes k node hk hnd, ?_, ?_, ?_⟩
  · rw [List.length_map, List.length_eraseIdx]
    simp [hklen]
  · intro n hn c hc
    obtain ⟨o, ho, rfl⟩ := List.mem_map.mp hn
    have ho' : o ∈ nodes := (List.eraseIdx_sublist nodes k).mem ho
    have := (mem_adjust_connections (hcount o ho')).mp hc
    obtain ⟨e, he, hek, rfl⟩ := this
    exact renum_lt hklen (hrange o ho' e he) hek
  · intro j hj
    have hjE : (nodes.eraseIdx k).get? j = nodes.get? (if j < k then j else j + 1) := by
      rw [List.get?_eq_getElem?, List.get?_eq_getElem?, List.getElem?_eraseIdx]
      split <;> rfl
    have hjlt : (if j < k then j else j + 1) < nodes.length := by split <;> omega
    obtain ⟨orig, horig⟩ : ∃ orig, nodes.get? (if j < k then j else j + 1) = some orig :=
      ⟨nodes.get ⟨_, hjlt⟩, List.get?_eq_get hjlt⟩
    refine ⟨adjustNode k orig, orig, ?_, horig, rfl, ?_⟩
    · rw [List.get?_map, hjE, horig]
      rfl
    · intro c
      have horigmem : orig ∈ nodes := List.get?_mem horig
      exact mem_adjust_connections (hcount orig horigmem)

/-- Iterated `eraseIdx`, the positional effect of the removal loop of
`filter_network`. -/
def eraseIdxs (v : List α) (ks : List Nat) : List α := ks.foldl List.eraseIdx v

theorem eraseIdxs_nil (v : List α) : eraseIdxs v [] = v := rfl

theorem eraseIdxs_cons (v : List α) (k : Nat) (ks : List Nat) :
    eraseIdxs v (k :: ks) = eraseIdxs (v.eraseIdx k) ks := rfl

theorem eraseIdxs_sublist (v : List α) (ks : List Nat) :
    (eraseIdxs v ks).Sublist v := by
  induction ks generalizing v with
  | nil => exact List.Sublist.refl v
  | cons k ks ih =>
    exact (ih (v.eraseIdx k)).trans (List.eraseIdx_sublist v k)

theorem map_eraseIdx (f : α → β) (l : List α) (k : Nat) :
    (l.eraseIdx k).map f = (l.map f).eraseIdx k := by
  rw [List.eraseIdx_eq_take_drop_succ, List.eraseIdx_eq_take_drop_succ,
    List.map_append, List.map_take, List.map_drop]

/-- Address-and-type view of a node list; `remove_node` only rewrites
connections, so this view evolves by pure positional erasure. -/
def viewAT (nodes : List Node) : List (IpAddr × NetworkType) :=
  nodes.map (fun n => (n.addr, n.network_type))

theorem viewAT_adjust (k : Nat) (l : List Node) :
    viewAT (l.map (adjustNode k)) = viewAT l := by
  unfold viewAT adjustNode
  rw [List.map_map]
  rfl

theorem foldlM_remove_node_spec (ks : List Nat) (nodes : List Node)
    (hdesc : List.Pairwise (fun a b => b < a) ks)
    (hlt : ∀ k ∈ ks, k < nodes.length)
    (hnd : (nodes.map Node.addr).Nodup) :
    ∃ Y, ks.foldlM (fun acc k => remove_node acc k) nodes = some Y ∧
      viewAT Y = eraseIdxs (viewAT nodes) ks ∧
      (Y.map Node.addr).Nodup := by
  induction ks generalizing nodes with
  | nil => exact ⟨nodes, rfl, rfl, hnd⟩
  | cons k ks ih =>
    have hk : k < nodes.length := hlt k (List.mem_cons_self k ks)
    have hget : nodes.get? k = some (nodes.get ⟨k, hk⟩) := List.get?_eq_get hk
    have hrm := remove_node_eq nodes k (nodes.get ⟨k, hk⟩) hget hnd
    set Y1 := (nodes.eraseIdx k).map (adjustNode k) with hY1
    have hY1addr : Y1.map Node.addr = (nodes.map Node.addr).eraseIdx k := by
      rw [hY1, List.map_map]
      have : (Node.addr ∘ adjustNode k) = Node.addr := rfl
      rw [this, map_eraseIdx]
    have hY1nd : (Y1.map Node.addr).Nodup := by
      rw [hY1addr]
      exact ((List.eraseIdx_sublist _ k)).nodup hnd
    have hY1len : Y1.length = nodes.length - 1 := by
      rw [hY1, List.length_map, List.length_eraseIdx]
      simp [hk]
    have hlt2 : ∀ j ∈ ks, j < Y1.length := by
      intro j hj
      have hjk : j < k := List.rel_of_pairwise_cons hdesc hj
      omega
    obtain ⟨Y, hfold, hview, hndY⟩ := ih Y1 hdesc.of_cons hlt2 hY1nd
    refine ⟨Y, ?_, ?_, hndY⟩
    · rw [List.foldlM_cons, hrm]
      simpa using hfold
    · rw [hview, eraseIdxs_cons]
      congr 1
      rw [hY1, viewAT_adjust]
      exact map_eraseIdx _ nodes k

theorem eraseIdxs_fst_not_mem (ks : List Nat) (v : List (IpAddr × NetworkType))
    (hnd : (v.map Prod.fst).Nodup)
    (hdesc : List.Pairwise (fun a b => b < a) ks)
    (hlt : ∀ k ∈ ks, k < v.length) :
    ∀ i ∈ ks, ∀ e ∈ eraseIdxs v ks, ∀ p, v.get? i = some p → e.1 ≠ p.1 := by
  induction ks generalizing v with
  | nil => intro i hi; simp at hi
  | cons k ks ih =>
    intro i hi e he p hp heq
    rw [eraseIdxs_cons] at he
    have hkv : k < v.length := hlt k (List.mem_cons_self k ks)
    rcases List.mem_cons.mp hi with rfl | hi
    · -- the entry at the very index `i = k` was erased first; a surviving
      -- equal-`fst` entry would be a duplicate in the `fst` projection
      have hemem : e ∈ v.eraseIdx i := (eraseIdxs_sublist _ ks).mem he
      obtain ⟨i2, hi2ne, hi2⟩ := List.mem_eraseIdx_iff_get?.mp hemem
      have h1 : (v.map Prod.fst).get? i2 = some e.1 := by
        rw [List.get?_map, hi2]; rfl
      have h2 : (v.map Prod.fst).get? i = some e.1 := by
        rw [List.get?_map, hp, heq]; rfl
      have hi2lt : i2 < (v.map Prod.fst).length := by
        have := List.get?_eq_some.mp h1
        exact this.1
      exact hi2ne (List.get?_inj hi2lt hnd (h1.trans h2.symm))
    · have hik : i < k := List.rel_of_pairwise_cons hdesc hi
      have hnd2 : ((v.eraseIdx k).map Prod.fst).Nodup := by
        rw [map_eraseIdx]
        exact (List.eraseIdx_sublist _ k).nodup hnd
      have hlt2 : ∀ j ∈ ks, j < (v.eraseIdx k).length := by
        intro j hj
        have : j < k := List.rel_of_pairwise_cons hdesc hj
        rw [List.length_eraseIdx]
        simp only [hkv, if_true]
        omega
      have hp2 : (v.eraseIdx k).get? i = some p := by
        rw [List.get?_eq_getElem?, List.getElem?_eraseIdx]
        simp only [hik, if_true]
        rw [← List.get?_eq_getElem?, hp]
      exact ih (v.eraseIdx k) hnd2 hdesc.of_cons hlt2 i hi e he p hp2 heq

theorem filter_network_indices_pairwise (nodes : List Node) (network : NetworkType) :
    List.Pairwise (fun a b => b < a)
      ((List.range nodes.length).reverse.filter
        (fun idx => ((nodes.get? idx).map Node.network_type).getD network ≠ network)) := by
  apply List.Pairwise.filter
  rw [List.pairwise_reverse]
  exact List.pairwise_lt_range nodes.length

theorem filter_network_sound (nodes : List Node) (network : NetworkType)
    (hnd : (nodes.map Node.addr).Nodup) :
    ∀ Y, filter_network nodes network = some Y →
      (∀ m ∈ Y, m.network_type = network) ∧ (Y.map Node.addr).Nodup := by
  intro Y h
  unfold filter_network at h
  set q : Nat → Bool := fun idx =>
    decide (((nodes.get? idx).map Node.network_type).getD network ≠ network) with hq
  set ks := (List.range nodes.length).reverse.filter q with hks
  have hdesc : List.Pairwise (fun a b => b < a) ks :=
    filter_network_indices_pairwise nodes network
  have hlt : ∀ k ∈ ks, k < nodes.length := by
    intro k hk
    rw [hks] at hk
    have := (List.mem_filter.mp hk).1
    exact List.mem_range.mp (List.mem_reverse.mp this)
  obtain ⟨Y0, hfold, hview, hndY⟩ := foldlM_remove_node_spec ks nodes hdesc hlt hnd
  rw [hfold] at h
  obtain rfl : Y0 = Y := by simpa using h
  refine ⟨?_, hndY⟩
  intro m hm
  by_contra hne
  have hmv : (m.addr, m.network_type) ∈ viewAT Y0 :=
    List.mem_map_of_mem _ hm
  rw [hview] at hmv
  have hmv0 : (m.addr, m.network_type) ∈ viewAT nodes :=
    (eraseIdxs_sublist _ ks).mem hmv
  obtain ⟨i, hi⟩ := List.mem_iff_get?.mp hmv0
  have hilen : i < nodes.length := by
    have := List.get?_eq_some.mp hi
    have h2 := this.1
    rwa [viewAT, List.length_map] at h2
  obtain ⟨ni, hni⟩ : ∃ ni, nodes.get? i = some ni :=
    ⟨nodes.get ⟨i, hilen⟩, List.get?_eq_get hilen⟩
  have hview_i : (ni.addr, ni.network_type) = (m.addr, m.network_type) := by
    have : (viewAT nodes).get? i = some (ni.addr, ni.network_type) := by
      rw [viewAT, List.get?_map, hni]; rfl
    rw [this] at hi
    exact Option.some.inj hi
  have hsnd : ni.network_type = m.network_type := congrArg Prod.snd hview_i
  have hfst : ni.addr = m.addr := congrArg Prod.fst hview_i
  have hqi : q i = true := by
    rw [hq]
    have hgd : ((nodes.get? i).map Node.network_type).getD network = ni.network_type := by
      rw [hni]; rfl
    simp only [ne_eq, hgd, decide_eq_true_eq]
    rw [hsnd]
    exact hne
  have hiks : i ∈ ks := by
    rw [hks]
    exact List.mem_filter.mpr ⟨List.mem_reverse.mpr (List.mem_range.mpr hilen), hqi⟩
  exact eraseIdxs_fst_not_mem ks (viewAT nodes)
    (by rw [viewAT, List.map_map]; exact hnd) hdesc
    (by intro k hk; rw [viewAT, List.length_map]; exact hlt k hk)
    i hiks (m.addr, m.network_type) hmv (ni.addr, ni.network_type)
    (by rw [viewAT, List.get?_map, hni]; rfl)
    hfst.symm

theorem filter_network_fixed (Y : List Node) (network : NetworkType)
    (hall : ∀ m ∈ Y, m.network_type = network) :
    filter_network Y network = some Y := by
  unfold filter_network
  have hempty : (List.range Y.length).reverse.filter
      (fun idx => ((Y.get? idx).map Node.network_type).getD network ≠ network) = [] := by
    apply List.filter_eq_nil_iff.mpr
    intro i hi
    have hilen : i < Y.length := List.mem_range.mp (List.mem_reverse.mp hi)
    obtain ⟨m, hm⟩ : ∃ m, Y.get? i = some m :=
      ⟨Y.get ⟨i, hilen⟩, List.get?_eq_get hilen⟩
    have hm2 : Y[i]? = some m := by rw [← List.get?_eq_getElem?]; exact hm
    simp [hm2, hall m (List.get?_mem hm)]
  rw [hempty]
  rfl

/-- C10: `filter_network` is sound and idempotent — for every node list with
pairwise-distinct addresses and in-range connection indices and every
network type, every node of the filtered snapshot has the target
`network_type`, and filtering the filtered snapshot again returns it
unchanged. -/
theorem C10_filter_network_sound_idempotent (nodes Y : List Node)
    (network : NetworkType)
    (hnd : (nodes.map Node.addr).Nodup)
    (hrange : ∀ n ∈ nodes, ∀ c ∈ n.connections, c < nodes.length)
    (h : filter_network nodes network = some Y) :
    (∀ m ∈ Y, m.network_type = network) ∧ filter_network Y network = some Y := by
  obtain ⟨hall, hndY⟩ := filter_network_sound nodes network hnd Y h
  exact ⟨hall, filter_network_fixed Y network hall⟩

/-- Concrete mixed-type snapshot for the network-filter witness. -/
def nodesW10 : List Node :=
  [mkNode (some 1) 1 [1, 2] 0 .zcash,
   mkNode (some 2) 2 [0] 0 .unknown,
   mkNode (some 3) 3 [0] 0 .zcash]

/-- The filtered snapshot of the network-filter witness. -/
def resultW10 : List Node :=
  [mkNode (some 1) 1 [1] 0 .zcash, mkNode (some 3) 3 [0] 0 .zcash]

theorem C10_filter_network_sound_idempotent_witness :
    (∀ m ∈ resultW10, m.network_type = NetworkType.zcash) ∧
      filter_network resultW10 NetworkType.zcash = some resultW10 :=
  C10_filter_network_sound_idempotent nodesW10 resultW10 NetworkType.zcash
    (by decide) (by decide) (by decide)

/-- Concrete two-node snapshot for the node-removal witness. -/
def nodesW8 : List Node :=
  [mkNode (some 5) 5 [1] 0 .unknown, mkNode (some 6) 6 [0] 0 .unknown]

theorem C8_remove_node_spec_witness :
    ∃ Y, remove_node nodesW8 0 = some Y ∧
      Y.length = nodesW8.length - 1 ∧
      (∀ n ∈ Y, ∀ c ∈ n.connections, c < nodesW8.length - 1) ∧
      ∀ j, j < nodesW8.length - 1 →
        ∃ m orig, Y.get? j = some m ∧
          nodesW8.get? (if j < 0 then j else j + 1) = some orig ∧
          m.addr = orig.addr ∧
          ∀ c, c ∈ m.connections ↔ ∃ e ∈ orig.connections, e ≠ 0 ∧ c = renum 0 e :=
  C8_remove_node_spec nodesW8 0 (mkNode (some 5) 5 [1] 0 .unknown)
    (by decide) (by decide) (by decide) (by decide)

/-- Recording condition of the bridge heuristic, as the claim words it: with
threshold `T`, the pair `(u, v)` is recorded exactly when some endpoint has
betweenness at least `T` and the other endpoint is one of its neighbors
with betweenness strictly above `T`. -/
def bridgeCond (nodes : List Node) (T : ℚ) (u v : Nat) : Prop :=
  ∃ nu nv, nodes.get? u = some nu ∧ nodes.get? v = some nv ∧
    ((T ≤ nu.betweenness ∧ v ∈ nu.connections ∧ T < nv.betweenness) ∨
     (T ≤ nv.betweenness ∧ u ∈ nv.connections ∧ T < nu.betweenness))

theorem find_bridges_mem (nodes : List Node) (adj : ℚ) (bs : List (Nat × Nat)) (m : ℚ)
    (hlen : 2 ≤ nodes.length)
    (h : find_bridges nodes adj = some bs)
    (hm : median (sortBy (fun a b => decide (a ≤ b)) (nodes.map Node.betweenness)) = some m) :
    ∀ u v, (u, v) ∈ bs ↔ bridgeCond nodes (m * adj) u v := by
  unfold find_bridges at h
  rw [if_neg (by omega)] at h
  simp only [hm, Option.bind_eq_bind, Option.some_bind] at h
  cases hrows : mapOpt (fun p =>
      if p.2.betweenness < m * adj then some []
      else (mapOpt (fun peer =>
          (nodes.get? peer).map (fun pn =>
            if pn.betweenness ≤ m * adj then ([] : List (Nat × Nat))
            else [(p.1, peer), (peer, p.1)])) p.2.connections).map List.flatten)
    nodes.enum with
  | none => rw [hrows] at h; simp at h
  | some rows =>
    rw [hrows] at h
    obtain rfl : rows.flatten = bs := by simpa using h
    intro u v
    constructor
    · intro hmem
      obtain ⟨row, hrow, hin⟩ := List.mem_flatten.mp hmem
      obtain ⟨⟨i, node⟩, hienum, hf⟩ := mapOpt_mem hrows row hrow
      have hget : nodes.get? i = some node := by
        have := List.mk_mem_enum_iff_getElem?.mp hienum
        rwa [List.get?_eq_getElem?]
      by_cases hb : node.betweenness < m * adj
      · rw [if_pos hb] at hf
        obtain rfl : ([] : List (Nat × Nat)) = row := by simpa using hf
        simp at hin
      · rw [if_neg hb] at hf
        cases hinner : mapOpt (fun peer =>
            (nodes.get? peer).map (fun pn =>
              if pn.betweenness ≤ m * adj then ([] : List (Nat × Nat))
              else [(i, peer), (peer, i)])) node.connections with
        | none => rw [hinner] at hf; simp at hf
        | some inner =>
          rw [hinner] at hf
          obtain rfl : inner.flatten = row := by simpa using hf
          obtain ⟨l, hl, hinl⟩ := List.mem_flatten.mp hin
          obtain ⟨peer, hpeer, hg⟩ := mapOpt_mem hinner l hl
          cases hpn : nodes.get? peer with
          | none => rw [hpn] at hg; simp at hg
          | some pn =>
            rw [hpn] at hg
            simp only [Option.map_some'] at hg
            by_cases hpb : pn.betweenness ≤ m * adj
            · rw [if_pos hpb] at hg
              obtain rfl : ([] : List (Nat × Nat)) = l := by simpa using hg
              simp at hinl
            · rw [if_neg hpb] at hg
              obtain rfl : [(i, peer), (peer, i)] = l := by simpa using hg
              rcases List.mem_cons.mp hinl with huv | huv
              · obtain ⟨rfl, rfl⟩ := Prod.mk.injEq _ _ _ _ ▸ Prod.ext_iff.mp huv
                exact ⟨node, pn, hget, hpn,
                  Or.inl ⟨le_of_not_lt hb, hpeer, lt_of_not_le hpb⟩⟩
              · simp only [List.mem_singleton] at huv
                obtain ⟨rfl, rfl⟩ := Prod.mk.injEq _ _ _ _ ▸ Prod.ext_iff.mp huv
                exact ⟨pn, node, hpn, hget,
                  Or.inr ⟨le_of_not_lt hb, hpeer, lt_of_not_le hpb⟩⟩
    · rintro ⟨nu, nv, hu, hv, hcond⟩
      -- in either orientation we find an anchor `a` whose neighbor list
      -- produces the two-element record containing the pair
      have build : ∀ a b na nb, nodes.get? a = some na → nodes.get? b = some nb →
          m * adj ≤ na.betweenness → b ∈ na.connections → m * adj < nb.betweenness →
          ∀ z ∈ [(a, b), (b, a)], z ∈ rows.flatten := by
        intro a b na nb ha hb hale hbmem hblt z hz
        have haenum : nodes.enum.get? a = some (a, na) := by
          rw [List.get?_enum, ha]; rfl
        obtain ⟨row, hrowget, hf⟩ := mapOpt_get? hrows a (a, na) haenum
        rw [if_neg (not_lt.mpr hale)] at hf
        cases hinner : mapOpt (fun peer =>
            (nodes.get? peer).map (fun pn =>
              if pn.betweenness ≤ m * adj then ([] : List (Nat × Nat))
              else [(a, peer), (peer, a)])) na.connections with
        | none => rw [hinner] at hf; simp at hf
        | some inner =>
          rw [hinner] at hf
          obtain rfl : inner.flatten = row := by simpa using hf
          obtain ⟨idx, hidx⟩ := List.mem_iff_get?.mp hbmem
          obtain ⟨l, hlget, hg⟩ := mapOpt_get? hinner idx b hidx
          rw [hb] at hg
          simp only [Option.map_some'] at hg
          rw [if_neg (not_le.mpr hblt)] at hg
          obtain rfl : [(a, b), (b, a)] = l := by simpa using hg
          exact List.mem_flatten.mpr ⟨inner.flatten, List.get?_mem hrowget,
            List.mem_flatten.mpr ⟨[(a, b), (b, a)], List.get?_mem hlget, hz⟩⟩
      rcases hcond with ⟨h1, h2, h3⟩ | ⟨h1, h2, h3⟩
      · exact build u v nu nv hu hv h1 h2 h3 (u, v) (List.mem_cons_self _ _)
      · exact build v u nv nu hv hu h1 h2 h3 (u, v)
          (List.mem_cons_of_mem _ (List.mem_singleton.mpr rfl))

/-- C9: for every node list with at least 2 nodes and in-range connection
indices, the map returned by `find_bridges` is symmetric, and a pair is
recorded exactly when — with `T` the betweenness median times the
adjustment — some endpoint has betweenness at least `T` and the other is
one of its neighbors with betweenness strictly above `T`. -/
theorem C9_find_bridges_symmetric (nodes : List Node) (adj : ℚ)
    (bs : List (Nat × Nat)) (m : ℚ)
    (hlen : 2 ≤ nodes.length)
    (hrange : ∀ n ∈ nodes, ∀ c ∈ n.connections, c < nodes.length)
    (h : find_bridges nodes adj = some bs)
    (hm : median (sortBy (fun a b => decide (a ≤ b)) (nodes.map Node.betweenness)) = some m) :
    ∀ u v, ((u, v) ∈ bs ↔ (v, u) ∈ bs) ∧
      ((u, v) ∈ bs ↔ bridgeCond nodes (m * adj) u v) := by
  have hchar := find_bridges_mem nodes adj bs m hlen h hm
  intro u v
  refine ⟨?_, hchar u v⟩
  rw [hchar u v, hchar v u]
  unfold bridgeCond
  constructor
  · rintro ⟨nu, nv, hu, hv, hc⟩
    exact ⟨nv, nu, hv, hu, hc.symm⟩
  · rintro ⟨nv, nu, hv, hu, hc⟩
    exact ⟨nu, nv, hu, hv, hc.symm⟩

/-- Concrete three-node path for the bridge witness: betweennesses 1, 3, 4;
the median is 3, and with adjustment 1 the only recorded pair is 1 ↔ 2. -/
def nodesW9 : List Node :=
  [mkNode (some 0) 0 [1] 1 .unknown,
   mkNode (some 1) 1 [0, 2] 3 .unknown,
   mkNode (some 2) 2 [1] 4 .unknown]

theorem C9_find_bridges_symmetric_witness :
    ((1, 2) ∈ [(1, 2), (2, 1)] ↔ (2, 1) ∈ [(1, 2), (2, 1)]) ∧
      ((1, 2) ∈ [(1, 2), (2, 1)] ↔ bridgeCond nodesW9 (3 * 1) 1 2) :=
  C9_find_bridges_symmetric nodesW9 1 [(1, 2), (2, 1)] 3
    (by decide) (by decide) (by with_unfolding_all decide)
    (by with_unfolding_all decide) 1 2

/-- Normalization factor pair (`NormalizationFactors`). -/
structure NormalizationFactors where
  min : ℚ
  max : ℚ
  deriving DecidableEq, Repr

/-- Embedding of `NormalizationFactors::determine`: `min_by` / `max_by` over
the sample list; the `unwrap` panics (`none`) on an empty list. -/
def NormalizationFactors.determine (l : List ℚ) : Option NormalizationFactors :=
  match l with
  | [] => none
  | x :: xs => some { min := xs.foldl Min.min x, max := xs.foldl Max.max x }

/-- Embedding of `NormalizationFactors::scale`: linear scaling into `[0, 1]`,
returning 0 on a degenerate (`min = max`) factor pair. -/
def NormalizationFactors.scale (f : NormalizationFactors) (value : ℚ) : ℚ :=
  if f.min = f.max then 0 else (value - f.min) / (f.max - f.min)

/-- `NORMALIZE_TO_VALUE` of the source. -/
def NORMALIZE_TO_VALUE : ℚ := 100

/-- `NORMALIZE_HALF` of the source. -/
def NORMALIZE_HALF : ℚ := NORMALIZE_TO_VALUE / 2

/-- `NORMALIZE_2_3` of the source. -/
def NORMALIZE_2_3 : ℚ := NORMALIZE_TO_VALUE * 2 / 3

/-- `NORMALIZE_1_3` of the source. -/
def NORMALIZE_1_3 : ℚ := NORMALIZE_TO_VALUE * 1 / 3

/-- Embedding of `Ips::rate_node`: the weighted sum of the four normalized
centralities; the four factor pairs are the fields the source stores on
`self` before the loop. -/
def rate_node (cfg : IPSConfiguration)
    (degree_factors betweenness_factors closeness_factors eigenvector_factors :
      NormalizationFactors)
    (node : Node) (degree : Nat) (eigenvalue : ℚ) : ℚ :=
  degree_factors.scale (degree : ℚ) * NORMALIZE_TO_VALUE * cfg.mcda_weights.degree
  + betweenness_factors.scale node.betweenness * NORMALIZE_TO_VALUE
      * cfg.mcda_weights.betweenness
  + closeness_factors.scale node.closeness * NORMALIZE_TO_VALUE
      * cfg.mcda_weights.closeness
  + eigenvector_factors.scale eigenvalue * NORMALIZE_TO_VALUE
      * cfg.mcda_weights.eigenvector

/-- Embedding of `Ips::degree_centrality_avg`: fold-sum of the degree map
values divided by the map size (the map iteration order is the list
order; the sum and size do not depend on it). -/
def degree_centrality_avg (degrees : List (IpAddr × Nat)) : ℚ :=
  ((degrees.foldl (fun acc p => acc + p.2) 0 : Nat) : ℚ) / (degrees.length : ℚ)

/-- Embedding of `Ips::update_rating_by_location`: when the selected node
has coordinates, add the distance-bucket rating times the location weight
to every located node's row; rows of unlocated nodes are untouched; when
the selected node has no coordinates nothing changes. `dist` is the
external geodesic `distance_to` primitive (meters). -/
def update_rating_by_location (cfg : IPSConfiguration)
    (dist : Location → Location → ℚ) (selected_node : Node) (nodes : List Node)
    (ratings : List PeerEntry) : List PeerEntry :=
  match selected_node.geolocation.bind GeoInfo.location with
  | none => ratings
  | some selected_location =>
    ratings.enum.map (fun p =>
      match (nodes.get? p.1).bind (fun n => n.geolocation.bind GeoInfo.location) with
      | none => p.2
      | some loc =>
        let distance := dist selected_location loc
        let minmax_distance_m := cfg.geolocation_minmax_distance_km * 1000
        let rating :=
          if cfg.geolocation = GeoLocationMode.preferCloser then
            if distance < minmax_distance_m then NORMALIZE_TO_VALUE
            else if distance < 2 * minmax_distance_m then NORMALIZE_2_3
            else if distance < 3 * minmax_distance_m then NORMALIZE_1_3
            else 0
          else
            if distance < minmax_distance_m / 2 then 0
            else if distance < minmax_distance_m then NORMALIZE_HALF
            else NORMALIZE_TO_VALUE
        { p.2 with rating := p.2.rating + rating * cfg.mcda_weights.location })

/-- `u32::saturating_add`. -/
def satAdd32 (a b : Nat) : Nat := Min.min (a + b) (2 ^ 32 - 1)

/-- `f64::round` (half away from zero) composed with the saturating
`as u32` cast; the operand is nonnegative at the call site, and a negative
operand would clamp to zero exactly as the cast does. -/
def roundToU32 (q : ℚ) : Nat := Min.min (Int.toNat ⌊q + 1 / 2⌋) (2 ^ 32 - 1)

/-- Embedding of step 3 of `Ips::generate`: how many peers to delete. -/
def peers_to_delete_count (cfg : IPSConfiguration) (desired_degree degree : Nat) : Nat :=
  if desired_degree < degree then degree - desired_degree else cfg.change_at_least

/-- Embedding of step 3 of `Ips::generate`: how many peers to add — the
degree deficit plus the delete count (saturating `u32` addition) when
growing, `change_at_least` otherwise — then capped at `change_no_more`. -/
def peers_to_add_count (cfg : IPSConfiguration) (desired_degree degree : Nat) : Nat :=
  let to_delete := peers_to_delete_count cfg desired_degree degree
  let raw := if degree < desired_degree then satAdd32 (desired_degree - degree) to_delete
             else cfg.change_at_least
  if cfg.change_no_more < raw then cfg.change_no_more else raw

/-- Rating comparison of the two descending `sort_by` calls of the source:
`b.rating.partial_cmp(&a.rating)`. -/
def ratingDesc (a b : PeerEntry) : Bool := decide (b.rating ≤ a.rating)

/-- Raw betweenness of the node a rating row points at
(`state.nodes[a.index].betweenness`; every row index is in range at the
call sites, so the default is never taken). -/
def betwOf (nodes : List Node) (i : Nat) : ℚ :=
  ((nodes.get? i).map Node.betweenness).getD 0

/-- Ascending comparison on raw betweenness used for the candidate pool. -/
def betwAsc (nodes : List Node) (a b : PeerEntry) : Bool :=
  decide (betwOf nodes a.index ≤ betwOf nodes b.index)

/-- Embedding of step 5 of `Ips::generate`: sort the ratings descending by
rating, drop the rows whose address is already in the list, take
`2 × to_add` rows (`u32` multiplication, wrapping) as the candidate pool,
re-sort the pool ascending by raw betweenness, and keep the first
`to_add` addresses. -/
def choose_candidates (nodes : List Node) (peer_ratings : List PeerEntry)
    (list : List IpAddr) (to_add : Nat) : List IpAddr :=
  let sorted := sortBy ratingDesc peer_ratings
  let kept := sorted.filter (fun x => ¬ list.contains x.ip)
  let candidates := kept.take (to_add * 2 % 2 ^ 32)
  let candidates2 := sortBy (betwAsc nodes) candidates
  (candidates2.take to_add).map PeerEntry.ip

/-- Embedding of the BFS island detector `Ips::detect_islands` at the level
of its only effect observable in `generate` (the island list is bound to a
discarded variable there): the BFS reads `visited[agraph[u][j]]` for every
entry of every row, every start index `0..N` being enumerated by the outer
loop, so it panics exactly when some adjacency entry is out of range, and
otherwise terminates normally. -/
def detect_islands_check (agraph : List (List Nat)) : Option Unit :=
  if agraph.all (fun row => row.all (fun j => j < agraph.length)) then some () else none

/-- Embedding of the body of the peer-list loop of `Ips::generate` for the
node at `node_idx`: adjust ratings by location, seed the list with the
current neighbors (also snapshotting their ratings), compute the desired
degree and change counts, drop the self row from the ratings, pick victims
from the sorted snapshot of current-peer ratings (the popped rows are
discarded — the source never removes the victims from the output list),
then append candidates when `to_add > 0`. -/
def generate_entry (cfg : IPSConfiguration) (dist : Location → Location → ℚ)
    (degrees : List (IpAddr × Nat)) (nodes : List Node)
    (agraph : List (List Nat)) (degree_avg : ℚ) (const_factors : List PeerEntry)
    (node_idx : Nat) (node : Node) : Option Peer := do
  let node_ip ← node.ip
  let peer_ratings0 :=
    if cfg.geolocation ≠ GeoLocationMode.off then
      update_rating_by_location cfg dist node nodes const_factors
    else const_factors
  let row ← agraph.get? node_idx
  let seeds ← mapOpt (fun peer => (nodes.get? peer).bind Node.ip) row
  let curr_peer_ratings ← mapOpt (fun peer => peer_ratings0.get? peer) row
  let degree ← degrees.lookup node_ip
  let desired_degree := roundToU32 ((degree_avg + (degree : ℚ)) / 2)
  let peers_to_delete := peers_to_delete_count cfg desired_degree degree
  let peers_to_add := peers_to_add_count cfg desired_degree degree
  let peer_ratings1 := peer_ratings0.filter (fun x => x.index ≠ node_idx)
  let sorted_curr := sortBy ratingDesc curr_peer_ratings
  let _victims := sorted_curr.take (sorted_curr.length - peers_to_delete)
  let list1 :=
    if 0 < peers_to_add then
      seeds ++ choose_candidates nodes peer_ratings1 seeds peers_to_add
    else seeds
  pure { ip := node_ip, list := list1 }

/-- Embedding of `Ips::generate`, the full pipeline. The external
centrality engine is a black box (out of scope of the core); the maps it
returns are the parameters `degrees` and `eigenvalues`, association lists
in the engine's iteration order, and the geodesic primitive is `dist`.
`none` embeds a panic anywhere in the run. -/
def generate (cfg : IPSConfiguration) (dist : Location → Location → ℚ)
    (degrees : List (IpAddr × Nat)) (eigenvalues : List (IpAddr × ℚ))
    (nodes : List Node) (agraph : List (List Nat)) : Option (List Peer) := do
  let _graph ← Ips.construct_graph nodes agraph
  let _islands ← detect_islands_check agraph
  let degree_avg := degree_centrality_avg degrees
  let degree_factors ← NormalizationFactors.determine (degrees.map (fun p => (p.2 : ℚ)))
  let eigenvector_factors ← NormalizationFactors.determine (eigenvalues.map (fun p => p.2))
  let betweenness_factors ← NormalizationFactors.determine (nodes.map Node.betweenness)
  let closeness_factors ← NormalizationFactors.determine (nodes.map Node.closeness)
  let const_factors ← mapOpt (fun p => do
      let ip ← p.2.ip
      let deg ← degrees.lookup ip
      let eig ← eigenvalues.lookup ip
      pure { ip := ip, index := p.1,
             rating := rate_node cfg degree_factors betweenness_factors
               closeness_factors eigenvector_factors p.2 deg eig : PeerEntry })
    nodes.enum
  mapOpt (fun p =>
      generate_entry cfg dist degrees nodes agraph degree_avg const_factors p.1 p.2)
    nodes.enum

/-- A configuration with unit MCDA weights, geolocation off, and no forced
churn (`change_at_least = change_no_more = 0`). -/
def cfg0 : IPSConfiguration :=
  { mcda_weights :=
      { degree := 1, betweenness := 1, closeness := 1, eigenvector := 1, location := 1 },
    geolocation := GeoLocationMode.off,
    geolocation_minmax_distance_km := 0,
    change_at_least := 0,
    change_no_more := 0 }

/-- A trivial geodesic distance (never consulted when geolocation is off). -/
def dist0 : Location → Location → ℚ := fun _ _ => 0

/-- C6: the claim says the core never panics on data-dependent inputs and
that the empty snapshot yields an empty peer-list output. It fails: on the
empty snapshot (`N = 0`, empty centrality maps) `Ips::generate` reaches
`NormalizationFactors::determine` on the empty degree-value vector, whose
`min_by(...).unwrap()` panics (`none` in the embedding) instead of
returning the empty output. -/
theorem C6_generate_empty_snapshot_panics :
    generate cfg0 dist0 [] [] [] [] = none ∧
      NormalizationFactors.determine [] = none :=
  ⟨by with_unfolding_all rfl, rfl⟩

/-- One-node snapshot whose adjacency row contains the node's own index. -/
def nodesC3 : List Node := [mkNode (some 7) 7 [] 0 .unknown]

/-- C3: the claim says the output peer list never contains the node's own
address, including when `agraph[u]` contains `u` itself. It fails: the
seed loop copies every current neighbor's address into the output list
before the self row is dropped (the `retain` at step 3 only filters the
candidate ratings), so with `agraph = [[0]]` the single node's output list
is `[7]` — its own address. -/
theorem C3_generate_self_in_output :
    generate cfg0 dist0 [(7, 2)] [(7, 1)] nodesC3 [[0]] =
      some [{ ip := 7, list := [7] }] ∧ (7 : IpAddr) ∈ [(7 : IpAddr)] :=
  ⟨by with_unfolding_all rfl, by decide⟩

/-- C4: the change counts of `Ips::generate` — writing `d*` for the desired
degree and `deg` for the degree, `to_delete` is `deg − d*` when `d* < deg`
and `change_at_least` otherwise (never capped), while `to_add` is
`(d* − deg) + to_delete` when `d* > deg` and `change_at_least` otherwise,
finally capped at `change_no_more`; the saturating `u32` addition agrees
with the plain sum below `2 ^ 32`. -/
theorem C4_change_counts (cfg : IPSConfiguration) (desired degree : Nat)
    (hof : desired - degree + peers_to_delete_count cfg desired degree < 2 ^ 32) :
    peers_to_delete_count cfg desired degree =
      (if desired < degree then degree - desired else cfg.change_at_least) ∧
    peers_to_add_count cfg desired degree =
      Min.min
        (if degree < desired
          then (desired - degree) + peers_to_delete_count cfg desired degree
          else cfg.change_at_least)
        cfg.change_no_more := by
  refine ⟨rfl, ?_⟩
  unfold peers_to_add_count satAdd32
  simp only [Nat.min_def]
  split_ifs <;> omega

theorem C4_change_counts_witness :
    peers_to_delete_count
        { cfg0 with change_at_least := 1, change_no_more := 5 } 4 2 =
      (if 4 < 2 then 2 - 4
        else ({ cfg0 with change_at_least := 1, change_no_more := 5 }).change_at_least) ∧
    peers_to_add_count
        { cfg0 with change_at_least := 1, change_no_more := 5 } 4 2 =
      Min.min
        (if 2 < 4
          then (4 - 2) + peers_to_delete_count
            { cfg0 with change_at_least := 1, change_no_more := 5 } 4 2
          else ({ cfg0 with change_at_least := 1, change_no_more := 5 }).change_at_least)
        ({ cfg0 with change_at_least := 1, change_no_more := 5 }).change_no_more :=
  C4_change_counts { cfg0 with change_at_least := 1, change_no_more := 5 } 4 2 (by decide)

/-- The candidate-selection step exactly as the specification words it:
sort the remaining rating rows descending by rating, drop the rows whose
address is already in the output list, take the top `2 × to_add` rows
(clipped to the available rows) as the candidate pool, re-sort the pool by
raw betweenness ascending, and keep the first `to_add` addresses. -/
def choose_candidates_spec (nodes : List Node) (peer_ratings : List PeerEntry)
    (list : List IpAddr) (to_add : Nat) : List IpAddr :=
  let shortlisted := (sortBy ratingDesc peer_ratings).filter (fun x => ¬ list.contains x.ip)
  let pool := shortlisted.take (2 * to_add)
  let picked := sortBy (betwAsc nodes) pool
  (picked.take to_add).map PeerEntry.ip

/-- C5: the candidate selection performed by `Ips::generate` (the
`choose_candidates` step invoked whenever `to_add > 0`) coincides with the
specification's pipeline — descending stable sort by rating, dropping
already-listed addresses, a pool of the top `2 × to_add` rows, ascending
stable re-sort by raw betweenness, then the first `to_add` addresses —
whenever the `u32` product `2 × to_add` does not wrap. -/
theorem C5_candidate_selection (nodes : List Node) (peer_ratings : List PeerEntry)
    (list : List IpAddr) (to_add : Nat) (hof : 2 * to_add < 2 ^ 32) :
    choose_candidates nodes peer_ratings list to_add =
      choose_candidates_spec nodes peer_ratings list to_add := by
  unfold choose_candidates choose_candidates_spec
  have h2 : to_add * 2 % 2 ^ 32 = 2 * to_add := by
    rw [Nat.mul_comm]
    exact Nat.mod_eq_of_lt hof
  rw [h2]

/-- Concrete rating table for the candidate-selection witness. -/
def ratingsW5 : List PeerEntry :=
  [{ ip := 10, index := 0, rating := 5 },
   { ip := 11, index := 1, rating := 4 },
   { ip := 12, index := 2, rating := 3 }]

theorem C5_candidate_selection_witness :
    choose_candidates nodesAdjC1 ratingsW5 [10] 1 =
      choose_candidates_spec nodesAdjC1 ratingsW5 [10] 1 :=
  C5_candidate_selection nodesAdjC1 ratingsW5 [10] 1 (by decide)

theorem mapOpt_get?_rev {f : α → Option β} {l : List α} {ys : List β}
    (h : mapOpt f l = some ys) :
    ∀ i y, ys.get? i = some y → ∃ x, l.get? i = some x ∧ f x = some y := by
  induction l generalizing ys with
  | nil =>
    obtain rfl : ys = [] := by simpa [mapOpt] using h
    intro i y hy
    simp at hy
  | cons a as ih =>
    obtain ⟨y, ys', hy, hrest, rfl⟩ := mapOpt_cons_eq_some h
    intro i z hz
    cases i with
    | zero =>
      simp only [List.get?, Option.some.injEq] at hz
      subst hz
      exact ⟨a, rfl, hy⟩
    | succ n =>
      simp only [List.get?] at hz ⊢
      exact ih hrest n z hz

theorem generate_eq_some {cfg : IPSConfiguration} {dist : Location → Location → ℚ}
    {degs : List (IpAddr × Nat)} {eigs : List (IpAddr × ℚ)}
    {nodes : List Node} {agraph : List (List Nat)} {pl : List Peer}
    (h : generate cfg dist degs eigs nodes agraph = some pl) :
    ∃ cfac, mapOpt (fun p =>
        generate_entry cfg dist degs nodes agraph (degree_centrality_avg degs)
          cfac p.1 p.2) nodes.enum = some pl := by
  unfold generate at h
  simp only [Option.bind_eq_bind] at h
  obtain ⟨g, hg, h⟩ := Option.bind_eq_some.mp h
  obtain ⟨u, hu, h⟩ := Option.bind_eq_some.mp h
  obtain ⟨dF, hdF, h⟩ := Option.bind_eq_some.mp h
  obtain ⟨eF, heF, h⟩ := Option.bind_eq_some.mp h
  obtain ⟨bF, hbF, h⟩ := Option.bind_eq_some.mp h
  obtain ⟨cF, hcF, h⟩ := Option.bind_eq_some.mp h
  obtain ⟨cfac, hcfac, h⟩ := Option.bind_eq_some.mp h
  exact ⟨cfac, h⟩

theorem ite_list_extends (c : Prop) [Decidable c] (s t : List α) :
    ∃ rest, (if c then s ++ t else s) = s ++ rest := by
  by_cases h : c
  · exact ⟨t, by simp [h]⟩
  · exact ⟨[], by simp [h]⟩

theorem generate_entry_list_structure {cfg : IPSConfiguration}
    {dist : Location → Location → ℚ} {degs : List (IpAddr × Nat)}
    {nodes : List Node} {agraph : List (List Nat)} {avg : ℚ}
    {cfac : List PeerEntry} {node_idx : Nat} {node : Node} {entry : Peer}
    (h : generate_entry cfg dist degs nodes agraph avg cfac node_idx node = some entry) :
    ∃ row seeds rest, agraph.get? node_idx = some row ∧
      mapOpt (fun peer => (nodes.get? peer).bind Node.ip) row = some seeds ∧
      entry.list = seeds ++ rest := by
  unfold generate_entry at h
  simp only [Option.bind_eq_bind] at h
  obtain ⟨node_ip, hip, h⟩ := Option.bind_eq_some.mp h
  obtain ⟨row, hrow, h⟩ := Option.bind_eq_some.mp h
  obtain ⟨seeds, hseeds, h⟩ := Option.bind_eq_some.mp h
  obtain ⟨curr, hcurr, h⟩ := Option.bind_eq_some.mp h
  obtain ⟨degree, hdeg, h⟩ := Option.bind_eq_some.mp h
  simp only [Option.pure_def, Option.some.injEq] at h
  obtain ⟨rest, hrest⟩ : ∃ rest, entry.list = seeds ++ rest := by
    rw [← h]
    exact ite_list_extends _ _ _
  exact ⟨row, seeds, rest, hrow, hseeds, hrest⟩

/-- C2: the peer list `Ips::generate` outputs for a node extends the seeded
current neighbors — for every node index `i`, every neighbor `j` of
`agraph[i]` contributes its address to the output list (the victim loop
pops only the internal snapshot of current-peer ratings, never the output
list), and the output list length is at least `|agraph[i]|`, whatever the
computed delete count is. -/
theorem C2_generate_keeps_current_peers (cfg : IPSConfiguration)
    (dist : Location → Location → ℚ) (degs : List (IpAddr × Nat))
    (eigs : List (IpAddr × ℚ)) (nodes : List Node) (agraph : List (List Nat))
    (pl : List Peer) (h : generate cfg dist degs eigs nodes agraph = some pl) :
    ∀ i entry row, pl.get? i = some entry → agraph.get? i = some row →
      (∀ j ∈ row, ∀ nj a, nodes.get? j = some nj → nj.ip = some a →
        a ∈ entry.list) ∧
      row.length ≤ entry.list.length := by
  obtain ⟨cfac, hmap⟩ := generate_eq_some h
  intro i entry row hentry hrow
  obtain ⟨p, hpget, hpe⟩ := mapOpt_get?_rev hmap i entry hentry
  rw [List.get?_enum] at hpget
  cases hni : nodes.get? i with
  | none => rw [hni] at hpget; simp at hpget
  | some node =>
    rw [hni] at hpget
    simp only [Option.map_some', Option.some.injEq] at hpget
    subst hpget
    obtain ⟨row', seeds, rest, hrow', hseeds, hlist⟩ := generate_entry_list_structure hpe
    rw [hrow] at hrow'
    obtain rfl : row = row' := by simpa using hrow'
    constructor
    · intro j hj nj a hnj hia
      obtain ⟨a', ha'mem, ha'⟩ := mapOpt_mem_of_mem hseeds j hj
      rw [hnj] at ha'
      simp only [Option.some_bind] at ha'
      rw [hia] at ha'
      obtain rfl : a = a' := by simpa using ha'
      rw [hlist]
      exact List.mem_append_left rest ha'mem
    · have hlen : seeds.length = row.length := mapOpt_length hseeds
      rw [hlist, List.length_append]
      omega

/-- Concrete two-node snapshot for the seeded-peers and determinism
witnesses. -/
def nodesW2 : List Node :=
  [mkNode (some 7) 7 [] 0 .unknown, mkNode (some 8) 8 [] 0 .unknown]

/-- Adjacency of the two-node witness snapshot. -/
def agraphW2 : List (List Nat) := [[1], [0]]

theorem C2_generate_keeps_current_peers_witness :
    (∀ j ∈ [1], ∀ nj a, nodesW2.get? j = some nj → nj.ip = some a →
        a ∈ (Peer.mk 7 [8]).list) ∧
      ([1] : List Nat).length ≤ (Peer.mk 7 [8]).list.length :=
  C2_generate_keeps_current_peers cfg0 dist0 [(7, 1), (8, 1)] [(7, 1), (8, 1)]
    nodesW2 agraphW2 [Peer.mk 7 [8], Peer.mk 8 [7]]
    (by with_unfolding_all rfl) 0 (Peer.mk 7 [8]) [1] rfl rfl

theorem foldl_min_perm {t1 t2 : List ℚ} (h : t1.Perm t2) :
    ∀ x : ℚ, t1.foldl Min.min x = t2.foldl Min.min x := by
  induction h with
  | nil => intro x; rfl
  | cons y h ih => intro x; simp only [List.foldl_cons]; exact ih (Min.min x y)
  | swap y z t =>
    intro x
    simp only [List.foldl_cons]
    rw [min_assoc, min_comm z y, ← min_assoc]
  | trans h1 h2 ih1 ih2 => intro x; exact (ih1 x).trans (ih2 x)

theorem foldl_max_perm {t1 t2 : List ℚ} (h : t1.Perm t2) :
    ∀ x : ℚ, t1.foldl Max.max x = t2.foldl Max.max x := by
  induction h with
  | nil => intro x; rfl
  | cons y h ih => intro x; simp only [List.foldl_cons]; exact ih (Max.max x y)
  | swap y z t =>
    intro x
    simp only [List.foldl_cons]
    rw [max_assoc, max_comm z y, ← max_assoc]
  | trans h1 h2 ih1 ih2 => intro x; exact (ih1 x).trans (ih2 x)

theorem determine_perm {l1 l2 : List ℚ} (h : l1.Perm l2) :
    NormalizationFactors.determine l1 = NormalizationFactors.determine l2 := by
  induction h with
  | nil => rfl
  | cons x h ih =>
    simp only [NormalizationFactors.determine, List.foldl_cons, Option.some.injEq,
      NormalizationFactors.mk.injEq]
    exact ⟨foldl_min_perm h x, foldl_max_perm h x⟩
  | swap y z t =>
    simp only [NormalizationFactors.determine, List.foldl_cons, Option.some.injEq,
      NormalizationFactors.mk.injEq]
    constructor
    · rw [min_comm z y]
    · rw [max_comm z y]
  | trans h1 h2 ih1 ih2 => exact ih1.trans ih2

theorem lookup_eq_of_perm {β : Type} {l1 l2 : List (IpAddr × β)} (h : l1.Perm l2) :
    (l1.map Prod.fst).Nodup → ∀ a, l1.lookup a = l2.lookup a := by
  induction h with
  | nil => intro _ a; rfl
  | cons x h ih =>
    intro hnd a
    obtain ⟨k, v⟩ := x
    simp only [List.map_cons, List.nodup_cons] at hnd
    rw [List.lookup_cons, List.lookup_cons]
    cases hak : a == k
    · simp only [hak]
      exact ih hnd.2 a
    · simp only [hak]
  | swap x y t =>
    intro hnd a
    obtain ⟨k1, v1⟩ := x
    obtain ⟨k2, v2⟩ := y
    simp only [List.map_cons, List.nodup_cons, List.mem_cons] at hnd
    have hkk : k2 ≠ k1 := fun he => hnd.1 (Or.inl he)
    rw [List.lookup_cons, List.lookup_cons, List.lookup_cons, List.lookup_cons]
    cases hak2 : a == k2 <;> cases hak1 : a == k1 <;> simp only [hak2, hak1]
    exact absurd ((eq_of_beq hak2).symm.trans (eq_of_beq hak1)) hkk
  | trans h1 h2 ih1 ih2 =>
    intro hnd a
    have hnd2 := ((h1.map Prod.fst).nodup_iff).mp hnd
    exact (ih1 hnd a).trans (ih2 hnd2 a)

theorem foldl_add_snd (l : List (IpAddr × Nat)) :
    ∀ acc : Nat, l.foldl (fun acc p => acc + p.2) acc = acc + (l.map Prod.snd).sum := by
  induction l with
  | nil => intro acc; simp
  | cons x xs ih =>
    intro acc
    simp only [List.foldl_cons, List.map_cons, List.sum_cons, ih]
    omega

theorem degree_centrality_avg_perm {l1 l2 : List (IpAddr × Nat)} (h : l1.Perm l2) :
    degree_centrality_avg l1 = degree_centrality_avg l2 := by
  unfold degree_centrality_avg
  rw [h.length_eq, foldl_add_snd l1 0, foldl_add_snd l2 0, (h.map Prod.snd).sum_eq]

/-- C7: `Ips::generate` is deterministic up to the centrality engine's map
iteration order — two runs on the same snapshot, adjacency and
configuration, whose degree and eigenvector maps hold the same entries
(lists that are permutations of each other, with duplicate-free keys),
produce identical output: the normalization extrema, the average degree
and the keyed lookups are all iteration-order independent, and every sort
in the pipeline is stable, breaking ties by input order. -/
theorem C7_generate_deterministic (cfg : IPSConfiguration)
    (dist : Location → Location → ℚ) (nodes : List Node) (agraph : List (List Nat))
    {degs1 degs2 : List (IpAddr × Nat)} {eigs1 eigs2 : List (IpAddr × ℚ)}
    (hd : degs1.Perm degs2) (he : eigs1.Perm eigs2)
    (hdnd : (degs1.map Prod.fst).Nodup) (hend : (eigs1.map Prod.fst).Nodup) :
    generate cfg dist degs1 eigs1 nodes agraph =
      generate cfg dist degs2 eigs2 nodes agraph := by
  have hld : ∀ a, degs1.lookup a = degs2.lookup a := lookup_eq_of_perm hd hdnd
  have hle : ∀ a, eigs1.lookup a = eigs2.lookup a := lookup_eq_of_perm he hend
  have havg : degree_centrality_avg degs1 = degree_centrality_avg degs2 :=
    degree_centrality_avg_perm hd
  have hdetd : NormalizationFactors.determine (degs1.map (fun p => (p.2 : ℚ))) =
      NormalizationFactors.determine (degs2.map (fun p => (p.2 : ℚ))) :=
    determine_perm (hd.map (fun p => (p.2 : ℚ)))
  have hdete : NormalizationFactors.determine (eigs1.map (fun p => p.2)) =
      NormalizationFactors.determine (eigs2.map (fun p => p.2)) :=
    determine_perm (he.map (fun p => p.2))
  unfold generate generate_entry
  simp only [hld, hle, havg, hdetd, hdete]

theorem C7_generate_deterministic_witness :
    generate cfg0 dist0 [(7, 1), (8, 1)] [(7, 1), (8, 1)] nodesW2 agraphW2 =
      generate cfg0 dist0 [(8, 1), (7, 1)] [(8, 1), (7, 1)] nodesW2 agraphW2 :=
  C7_generate_deterministic cfg0 dist0 nodesW2 agraphW2
    (List.Perm.swap (8, 1) (7, 1) []) (List.Perm.swap (8, 1) (7, 1) [])
    (by decide) (by decide)

end Crunchy
